import Mathlib

/-!
Verification of the `ejercicios` bioinformatics exercise repository.

Each Python module is shallowly embedded below: strings are modelled as
`List Char`, Python dictionaries as association lists with insertion-order
update semantics, fallible functions as `Except`, and Python floats as `Rat`
(every quantity the claims touch is exactly representable, and
`round(x, n)` is modelled as exact half-to-even decimal rounding).
Python `str.upper` is modelled character-wise via `Char.toUpper`
(ASCII uppercasing), which agrees with Python on all ASCII input.
-/

/-! ### Shared helpers for Python string primitives -/

/-- Python ASCII whitespace characters, as recognised by `str.split()` and
`str.strip()` on the ASCII inputs relevant here. -/
def isPySpace (c : Char) : Bool :=
  c = ' ' || c = '\t' || c = '\n' || c = '\r' || c = '\x0b' || c = '\x0c'

/-- Python `s.strip()`: drop leading and trailing whitespace. -/
def stripWS (l : List Char) : List Char :=
  ((l.dropWhile isPySpace).reverse.dropWhile isPySpace).reverse

/-- Python `s.split(sep)` for a one-character separator: split at every
occurrence of `sep`, keeping empty pieces (so the result always has
exactly one more piece than there are separators). -/
def splitOnChar (sep : Char) : List Char → List (List Char)
  | [] => [[]]
  | c :: rest =>
    if c = sep then [] :: splitOnChar sep rest
    else
      match splitOnChar sep rest with
      | [] => [[c]]
      | p :: ps => (c :: p) :: ps

/-! ### base_freq.py -/

/-- `base_freq.validate_is_fasta`: error if no record marker occurs; then
error if splitting on the marker yields fewer than two pieces. -/
def validate_is_fasta (content : List Char) : Except String Unit :=
  if '>' ∉ content then
    .error "Error: El archivo no parece estar en formato FASTA."
  else if (splitOnChar '>' content).length < 2 then
    .error "Error: FASTA vacío o sin secuencia válida."
  else
    .ok ()

/-- `base_freq.parse_single_fasta`: take the piece after the first marker
(the source indexes `partes[1]`, which exists once validation passed; the
embedding uses `getD` with an empty default), strip it, split into lines;
the first line is the header, the remaining lines joined and stripped are
the raw sequence, which must be non-empty. -/
def parse_single_fasta (content : List Char) :
    Except String (List Char × List Char) :=
  let partes := splitOnChar '>' content
  let bloque := splitOnChar '\n' (stripWS (partes.getD 1 []))
  let header := bloque.headD []
  let seq_raw := stripWS (bloque.drop 1).flatten
  if seq_raw.length = 0 then .error "Error: la secuencia está vacía."
  else .ok (header, seq_raw)

/-- The valid bases of `base_freq.clean_sequence`. -/
def valid_bases : List Char := ['A', 'T', 'G', 'C']

/-- `base_freq.clean_sequence`: uppercase, then send each character either
to the cleaned sequence or to the invalid list, preserving order. -/
def clean_sequence (seq : List Char) : List Char × List Char :=
  let seq_upper := seq.map Char.toUpper
  (seq_upper.filter (fun c => c ∈ valid_bases),
   seq_upper.filter (fun c => c ∉ valid_bases))

/-- The dictionary returned by `base_freq.compute_base_counts`. -/
structure BaseCounts where
  A : Nat
  T : Nat
  G : Nat
  C : Nat
  total : Nat
  deriving DecidableEq, Repr

/-- `base_freq.compute_base_counts`: per-base counts plus the length. -/
def compute_base_counts (seq : List Char) : BaseCounts :=
  { A := seq.count 'A'
  , T := seq.count 'T'
  , G := seq.count 'G'
  , C := seq.count 'C'
  , total := seq.length }

/-- The data `base_freq.main` prints on success: the header, the invalid
characters reported as advisories (in encounter order), and the counts. -/
structure FastaReport where
  header : List Char
  invalid : List Char
  counts : BaseCounts
  deriving DecidableEq, Repr

/-- The success path of `base_freq.main` after the file read: validate the
shape, parse the first record, clean the sequence, fail if no valid bases
remain, otherwise report. -/
def base_freq_run (content : List Char) : Except String FastaReport := do
  (validate_is_fasta content).map id
  let (header, seq_raw) ← parse_single_fasta content
  let (seq_clean, invalid_chars) := clean_sequence seq_raw
  if seq_clean.length = 0 then
    .error "Error: la secuencia no contiene bases válidas (A,T,G,C)."
  else
    .ok { header := header, invalid := invalid_chars
        , counts := compute_base_counts seq_clean }

/-- Helper for C1: on a string over the valid alphabet the four counts
partition the length. -/
theorem counts_partition_length (l : List Char)
    (h : ∀ c ∈ l, c ∈ valid_bases) :
    l.count 'A' + l.count 'T' + l.count 'G' + l.count 'C' = l.length := by
  induction l with
  | nil => simp
  | cons c rest ih =>
    have hc : c ∈ valid_bases := h c (List.mem_cons_self c rest)
    have hrest : ∀ d ∈ rest, d ∈ valid_bases := fun d hd => h d (List.mem_cons_of_mem _ hd)
    have ih' := ih hrest
    simp only [valid_bases, List.mem_cons, List.not_mem_nil, or_false] at hc
    rcases hc with rfl | rfl | rfl | rfl <;>
      simp [List.count_cons] <;> omega

/-- C1: for every cleaned sequence (a string over A,T,G,C) the mapping
returned by `compute_base_counts` satisfies A+T+G+C = total, and total
equals the length of the cleaned sequence. -/
theorem c1_compute_base_counts_invariant (seq : List Char)
    (h : ∀ c ∈ seq, c ∈ valid_bases) :
    (compute_base_counts seq).A + (compute_base_counts seq).T +
      (compute_base_counts seq).G + (compute_base_counts seq).C =
      (compute_base_counts seq).total ∧
    (compute_base_counts seq).total = seq.length := by
  refine ⟨?_, rfl⟩
  simpa [compute_base_counts] using counts_partition_length seq h

/-- C1 witness: the invariant instantiated on the concrete cleaned
sequence ATGCCA. -/
theorem c1_compute_base_counts_invariant_witness :
    (∀ c ∈ (['A', 'T', 'G', 'C', 'C', 'A'] : List Char), c ∈ valid_bases) ∧
    ((compute_base_counts ['A', 'T', 'G', 'C', 'C', 'A']).A +
        (compute_base_counts ['A', 'T', 'G', 'C', 'C', 'A']).T +
        (compute_base_counts ['A', 'T', 'G', 'C', 'C', 'A']).G +
        (compute_base_counts ['A', 'T', 'G', 'C', 'C', 'A']).C =
        (compute_base_counts ['A', 'T', 'G', 'C', 'C', 'A']).total ∧
      (compute_base_counts ['A', 'T', 'G', 'C', 'C', 'A']).total =
        (['A', 'T', 'G', 'C', 'C', 'A'] : List Char).length) :=
  ⟨by decide, c1_compute_base_counts_invariant _ (by decide)⟩

/-- The file content of the worked example in the spec and the test suite. -/
def fastaExample : List Char := (">seq1\nATGCatgNxyz\n").toList

/-- C2 counterexample: on the example content the pipeline reports a
valid-sequence length of 7, not 8 as claimed (the record body ATGCatg has
seven valid bases). -/
theorem c2_length_counterexample :
    (base_freq_run fastaExample).map (fun r => r.counts.total) = .ok 7 ∧
      (7 : Nat) ≠ 8 := by
  constructor
  · rfl
  · decide

/-- C2 amended: on the example content the advisories are exactly N, X, Y,
Z in that order and the reported valid-sequence length is 7. -/
theorem c2_base_freq_example :
    base_freq_run fastaExample =
      .ok { header := ['s', 'e', 'q', '1']
          , invalid := ['N', 'X', 'Y', 'Z']
          , counts := { A := 2, T := 2, G := 2, C := 1, total := 7 } } := by
  rfl

/-- Splitting never produces an empty list of pieces. -/
theorem splitOnChar_ne_nil (sep : Char) (l : List Char) :
    splitOnChar sep l ≠ [] := by
  induction l with
  | nil => simp [splitOnChar]
  | cons c rest ih =>
    by_cases hc : c = sep
    · simp [splitOnChar, hc]
    · cases h' : splitOnChar sep rest with
      | nil => exact absurd h' ih
      | cons p ps => simp [splitOnChar, hc, h']

/-- If the separator occurs in the list, splitting yields at least two
pieces (Python `s.split(sep)` always returns one piece more than the
number of separator occurrences). -/
theorem two_le_splitOnChar_length (sep : Char) (l : List Char)
    (h : sep ∈ l) : 2 ≤ (splitOnChar sep l).length := by
  induction l with
  | nil => cases h
  | cons c rest ih =>
    by_cases hc : c = sep
    · have h1 : splitOnChar sep rest ≠ [] := splitOnChar_ne_nil sep rest
      have h2 : 0 < (splitOnChar sep rest).length := List.length_pos.mpr h1
      simp [splitOnChar, hc]
      omega
    · have hrest : sep ∈ rest := by
        rcases List.mem_cons.mp h with h1 | h1
        · exact absurd h1.symm hc
        · exact h1
      have h2 := ih hrest
      cases h' : splitOnChar sep rest with
      | nil => exact absurd h' (splitOnChar_ne_nil sep rest)
      | cons p ps =>
        rw [h'] at h2
        simp only [List.length_cons] at h2
        simp [splitOnChar, hc, h']
        omega

/-- C3 counterexample: no content containing the record marker makes
`validate_is_fasta` fail with the empty-FASTA condition, because the
split on a present marker always yields at least two pieces. -/
theorem c3_empty_fasta_counterexample :
    ¬ ∃ content : List Char, '>' ∈ content ∧
      validate_is_fasta content =
        .error "Error: FASTA vacío o sin secuencia válida." := by
  rintro ⟨content, hmem, heq⟩
  have h2 := two_le_splitOnChar_length '>' content hmem
  unfold validate_is_fasta at heq
  rw [if_neg (not_not_intro hmem)] at heq
  split at heq
  · omega
  · exact absurd heq (by simp)

/-- C3 amended: the empty-FASTA condition is dead code — any content
containing the marker passes `validate_is_fasta` outright, so the only
reachable failure is the (textually distinct) not-FASTA condition. -/
theorem c3_empty_fasta_unreachable (content : List Char) :
    validate_is_fasta content ≠
      .error "Error: FASTA vacío o sin secuencia válida." ∧
    ('>' ∈ content → validate_is_fasta content = .ok ()) ∧
    ("Error: FASTA vacío o sin secuencia válida." : String) ≠
      "Error: El archivo no parece estar en formato FASTA." := by
  refine ⟨?_, ?_, by decide⟩
  · by_cases hmem : '>' ∈ content
    · have h2 := two_le_splitOnChar_length '>' content hmem
      unfold validate_is_fasta
      rw [if_neg (not_not_intro hmem), if_neg (by omega)]
      simp
    · unfold validate_is_fasta
      rw [if_pos hmem]
      simp
  · intro hmem
    have h2 := two_le_splitOnChar_length '>' content hmem
    unfold validate_is_fasta
    rw [if_neg (not_not_intro hmem), if_neg (by omega)]

/-- C3 witness: the single-marker content is accepted by the validator. -/
theorem c3_empty_fasta_unreachable_witness :
    validate_is_fasta ['>'] = .ok () :=
  (c3_empty_fasta_unreachable ['>']).2.1 (by decide)

/-! ### k_mers.py -/

/-- The allowed alphabet of `k_mers.validate_sequence`. -/
def dnaBases : List Char := ['A', 'T', 'C', 'G']

/-- The normalisation performed by `k_mers.validate_sequence`: remove all
whitespace (Python `"".join(seq.split())`) and uppercase. -/
def normalizedOf (seq : List Char) : List Char :=
  (seq.filter (fun c => !(isPySpace c))).map Char.toUpper

/-- Insert a character into a strictly sorted list, keeping it strictly
sorted (ignoring duplicates). -/
def insertChar (c : Char) : List Char → List Char
  | [] => [c]
  | d :: ds =>
    if c = d then d :: ds
    else if c < d then c :: d :: ds
    else d :: insertChar c ds

/-- Python `sorted(set(l))` for characters: the distinct elements of `l`
in strictly ascending order. -/
def sortedSet (l : List Char) : List Char := l.foldr insertChar []

/-- The two failure modes of `k_mers.validate_sequence` on a present
input: empty after whitespace removal, or invalid characters, the latter
carrying the deduplicated ascending list interpolated into the Python
error message. -/
inductive SeqError where
  | emptySeq : SeqError
  | invalidChars (cs : List Char) : SeqError
  deriving DecidableEq, Repr

/-- `k_mers.validate_sequence`: strip whitespace, uppercase, reject an
empty result, reject characters outside A/T/C/G reporting them
deduplicated and sorted, otherwise return the normalised sequence. -/
def validate_sequence (seq : List Char) : Except SeqError (List Char) :=
  let normalized := normalizedOf seq
  if normalized.length = 0 then .error .emptySeq
  else
    let inv := sortedSet (normalized.filter (fun c => c ∉ dnaBases))
    if inv.isEmpty then .ok normalized else .error (.invalidChars inv)

/-- Python dictionary update `counts[kmer] = counts.get(kmer, 0) + 1` on
an insertion-ordered association list. -/
def dictIncr (d : List (List Char × Nat)) (key : List Char) :
    List (List Char × Nat) :=
  match d with
  | [] => [(key, 1)]
  | (k0, v) :: rest =>
    if k0 = key then (k0, v + 1) :: rest else (k0, v) :: dictIncr rest key

/-- The sum of the counts stored in a k-mer dictionary. -/
def dictTotal (d : List (List Char × Nat)) : Nat := (d.map Prod.snd).sum

/-- The overlapping windows `seq[i : i + k]` for `i` in
`range(len(seq) - k + 1)`. -/
def kmerWindows (seq : List Char) (k : Nat) : List (List Char) :=
  (List.range (seq.length - k + 1)).map (fun i => (seq.drop i).take k)

/-- `k_mers.count_kmers`: reject non-positive `k` and `k` beyond the
sequence length, otherwise tally every window into a dictionary. -/
def count_kmers (seq : List Char) (k : Int) :
    Except String (List (List Char × Nat)) :=
  if k ≤ 0 then .error "k debe ser un entero positivo"
  else if (seq.length : Int) < k then
    .error "k no puede ser mayor que la longitud de la secuencia"
  else .ok ((kmerWindows seq k.toNat).foldl dictIncr [])

/-- A dictionary update adds exactly one to the stored total. -/
theorem dictTotal_dictIncr (d : List (List Char × Nat)) (key : List Char) :
    dictTotal (dictIncr d key) = dictTotal d + 1 := by
  induction d with
  | nil => simp [dictIncr, dictTotal]
  | cons kv rest ih =>
    obtain ⟨k0, v⟩ := kv
    by_cases h : k0 = key
    · simp [dictIncr, h, dictTotal]
      omega
    · simp [dictIncr, h, dictTotal] at ih ⊢
      omega

/-- Tallying a list of windows adds the number of windows to the total. -/
theorem dictTotal_foldl (ws : List (List Char))
    (d : List (List Char × Nat)) :
    dictTotal (ws.foldl dictIncr d) = dictTotal d + ws.length := by
  induction ws generalizing d with
  | nil => simp
  | cons w ws ih =>
    simp only [List.foldl_cons, ih, dictTotal_dictIncr, List.length_cons]
    omega

/-- C4: on a validated non-empty A/T/C/G sequence, `count_kmers` with
`1 ≤ k ≤ len` returns a dictionary whose counts sum to `len - k + 1`,
which for `k = len` is the single entry `(seq, 1)`; for `k ≤ 0` or
`k > len` it fails with an error. -/
theorem c4_count_kmers (seq : List Char) (k : Int) (hne : seq ≠ [])
    (halpha : ∀ c ∈ seq, c ∈ dnaBases) :
    (1 ≤ k ∧ k ≤ (seq.length : Int) →
      ∃ d, count_kmers seq k = .ok d ∧
        (dictTotal d : Int) = (seq.length : Int) - k + 1 ∧
        (k = (seq.length : Int) → d = [(seq, 1)])) ∧
    (k ≤ 0 ∨ (seq.length : Int) < k →
      ∃ msg, count_kmers seq k = .error msg) := by
  constructor
  · rintro ⟨hk1, hk2⟩
    refine ⟨(kmerWindows seq k.toNat).foldl dictIncr [], ?_, ?_, ?_⟩
    · unfold count_kmers
      rw [if_neg (by omega), if_neg (by omega)]
    · have htot := dictTotal_foldl (kmerWindows seq k.toNat) []
      have hlen : (kmerWindows seq k.toNat).length =
          seq.length - k.toNat + 1 := by
        simp [kmerWindows]
      rw [hlen] at htot
      have h0 : dictTotal ([] : List (List Char × Nat)) = 0 := rfl
      rw [h0] at htot
      rw [htot]
      omega
    · intro hkeq
      have hk : k.toNat = seq.length := by omega
      have hwin : kmerWindows seq k.toNat = [seq] := by
        rw [hk]
        unfold kmerWindows
        rw [Nat.sub_self]
        simp [List.range_succ, List.range_zero, List.drop_zero,
          List.take_length]
      rw [hwin]
      rfl
  · intro hbad
    rcases hbad with hk | hk
    · exact ⟨_, by unfold count_kmers; rw [if_pos hk]⟩
    · have hk0 : ¬ k ≤ 0 := by omega
      exact ⟨_, by unfold count_kmers; rw [if_neg hk0, if_pos hk]⟩

/-- C4 witness: the theorem instantiated on the sequence ATCGA with
k = 2, every hypothesis discharged by evaluation. -/
theorem c4_count_kmers_witness :
    (['A', 'T', 'C', 'G', 'A'] : List Char) ≠ [] ∧
    (∀ c ∈ (['A', 'T', 'C', 'G', 'A'] : List Char), c ∈ dnaBases) ∧
    ((1 ≤ (2 : Int) ∧ (2 : Int) ≤
        ((['A', 'T', 'C', 'G', 'A'] : List Char).length : Int) →
      ∃ d, count_kmers ['A', 'T', 'C', 'G', 'A'] 2 = .ok d ∧
        (dictTotal d : Int) =
          ((['A', 'T', 'C', 'G', 'A'] : List Char).length : Int) - 2 + 1 ∧
        ((2 : Int) = ((['A', 'T', 'C', 'G', 'A'] : List Char).length : Int) →
          d = [(['A', 'T', 'C', 'G', 'A'], 1)])) ∧
     ((2 : Int) ≤ 0 ∨
        ((['A', 'T', 'C', 'G', 'A'] : List Char).length : Int) < 2 →
      ∃ msg, count_kmers ['A', 'T', 'C', 'G', 'A'] 2 = .error msg)) :=
  ⟨by decide, by decide,
    c4_count_kmers ['A', 'T', 'C', 'G', 'A'] 2 (by decide) (by decide)⟩

/-- Membership in an insertion is membership in the list or equality with
the inserted character. -/
theorem mem_insertChar (a c : Char) (l : List Char) :
    a ∈ insertChar c l ↔ a = c ∨ a ∈ l := by
  induction l with
  | nil => simp [insertChar]
  | cons d ds ih =>
    by_cases h1 : c = d
    · subst h1
      have he : insertChar c (c :: ds) = c :: ds := by simp [insertChar]
      rw [he]
      simp only [List.mem_cons]
      tauto
    · by_cases h2 : c < d
      · have he : insertChar c (d :: ds) = c :: d :: ds := by
          simp [insertChar, h1, h2]
        rw [he]
        simp only [List.mem_cons]
      · have he : insertChar c (d :: ds) = d :: insertChar c ds := by
          simp [insertChar, h1, h2]
        rw [he]
        simp only [List.mem_cons, ih]
        tauto

/-- Inserting preserves strict sortedness. -/
theorem pairwise_insertChar (c : Char) (l : List Char)
    (h : l.Pairwise (· < ·)) : (insertChar c l).Pairwise (· < ·) := by
  induction l with
  | nil => simp [insertChar]
  | cons d ds ih =>
    rcases List.pairwise_cons.mp h with ⟨hd, hds⟩
    by_cases h1 : c = d
    · subst h1
      have he : insertChar c (c :: ds) = c :: ds := by simp [insertChar]
      rw [he]
      exact h
    · by_cases h2 : c < d
      · have he : insertChar c (d :: ds) = c :: d :: ds := by
          simp [insertChar, h1, h2]
        rw [he]
        refine List.pairwise_cons.mpr ⟨?_, h⟩
        intro x hx
        rcases List.mem_cons.mp hx with rfl | hx
        · exact h2
        · exact lt_trans h2 (hd x hx)
      · have hdc : d < c :=
          lt_of_le_of_ne (le_of_not_lt h2) (Ne.symm h1)
        have he : insertChar c (d :: ds) = d :: insertChar c ds := by
          simp [insertChar, h1, h2]
        rw [he]
        refine List.pairwise_cons.mpr ⟨?_, ih hds⟩
        intro x hx
        rcases (mem_insertChar x c ds).mp hx with rfl | hx
        · exact hdc
        · exact hd x hx

/-- `sortedSet` is strictly ascending (hence also duplicate-free). -/
theorem sortedSet_pairwise (l : List Char) :
    (sortedSet l).Pairwise (· < ·) := by
  induction l with
  | nil => simp [sortedSet]
  | cons c cs ih => exact pairwise_insertChar c _ ih

/-- `sortedSet` has exactly the members of its input. -/
theorem mem_sortedSet (a : Char) (l : List Char) :
    a ∈ sortedSet l ↔ a ∈ l := by
  induction l with
  | nil => simp [sortedSet]
  | cons c cs ih =>
    show a ∈ insertChar c (sortedSet cs) ↔ a ∈ c :: cs
    rw [mem_insertChar, ih, List.mem_cons]

/-- `sortedSet` is empty exactly on an empty input. -/
theorem sortedSet_eq_nil_iff (l : List Char) :
    sortedSet l = [] ↔ l = [] := by
  rw [List.eq_nil_iff_forall_not_mem, List.eq_nil_iff_forall_not_mem]
  constructor
  · intro h a ha
    exact h a ((mem_sortedSet a l).mpr ha)
  · intro h a ha
    exact h a ((mem_sortedSet a l).mp ha)

/-- C8: `validate_sequence` succeeds with the whitespace-stripped
uppercased sequence exactly when that normalised sequence is non-empty
and entirely over A/T/C/G; an empty normalisation is rejected as empty;
an invalid-character rejection lists exactly the offending symbols,
deduplicated and in strictly ascending order. -/
theorem c8_validate_sequence (seq : List Char) :
    (validate_sequence seq = .ok (normalizedOf seq) ↔
      normalizedOf seq ≠ [] ∧ ∀ c ∈ normalizedOf seq, c ∈ dnaBases) ∧
    (normalizedOf seq = [] → validate_sequence seq = .error .emptySeq) ∧
    (∀ cs, validate_sequence seq = .error (.invalidChars cs) →
      cs.Pairwise (· < ·) ∧
        ∀ c, c ∈ cs ↔ c ∈ normalizedOf seq ∧ c ∉ dnaBases) ∧
    (∀ s, validate_sequence seq = .ok s → s = normalizedOf seq) := by
  have hmemf : ∀ c, c ∈ (normalizedOf seq).filter
      (fun c => c ∉ dnaBases) ↔ c ∈ normalizedOf seq ∧ c ∉ dnaBases := by
    intro c
    simp [List.mem_filter]
  by_cases h0 : (normalizedOf seq).length = 0
  · have hnil : normalizedOf seq = [] := List.length_eq_zero.mp h0
    have hval : validate_sequence seq = .error .emptySeq := by
      unfold validate_sequence
      rw [if_pos h0]
    refine ⟨?_, fun _ => hval, ?_, ?_⟩
    · rw [hval]
      simp [hnil]
    · intro cs hcs
      rw [hval] at hcs
      simp at hcs
    · intro s hs
      rw [hval] at hs
      simp at hs
  · by_cases hinv :
      (sortedSet ((normalizedOf seq).filter (fun c => c ∉ dnaBases))).isEmpty
    · have hfil : (normalizedOf seq).filter (fun c => c ∉ dnaBases) = [] := by
        rw [← sortedSet_eq_nil_iff]
        exact List.isEmpty_iff.mp hinv
      have hall : ∀ c ∈ normalizedOf seq, c ∈ dnaBases := by
        intro c hc
        by_contra hc2
        have : c ∈ (normalizedOf seq).filter (fun c => c ∉ dnaBases) :=
          (hmemf c).mpr ⟨hc, hc2⟩
        rw [hfil] at this
        simp at this
      have hval : validate_sequence seq = .ok (normalizedOf seq) := by
        unfold validate_sequence
        rw [if_neg h0, if_pos hinv]
      refine ⟨?_, ?_, ?_, ?_⟩
      · rw [hval]
        simp only [true_iff]
        exact ⟨fun hnil => h0 (by simp [hnil]), hall⟩
      · intro hnil
        exact absurd (by simp [hnil]) h0
      · intro cs hcs
        rw [hval] at hcs
        simp at hcs
      · intro s hs
        rw [hval] at hs
        simpa using hs.symm
    · have hval : validate_sequence seq =
          .error (.invalidChars
            (sortedSet ((normalizedOf seq).filter (fun c => c ∉ dnaBases)))) := by
        unfold validate_sequence
        rw [if_neg h0, if_neg hinv]
      refine ⟨?_, ?_, ?_, ?_⟩
      · rw [hval]
        constructor
        · intro h
          simp at h
        · rintro ⟨-, hall⟩
          exfalso
          apply hinv
          rw [List.isEmpty_iff, sortedSet_eq_nil_iff,
            List.filter_eq_nil_iff]
          intro c hc
          simp [hall c hc]
      · intro hnil
        exact absurd (by simp [hnil]) h0
      · intro cs hcs
        rw [hval] at hcs
        have hcseq :
            cs = sortedSet ((normalizedOf seq).filter (fun c => c ∉ dnaBases)) := by
          cases hcs
          rfl
        subst hcseq
        refine ⟨sortedSet_pairwise _, ?_⟩
        intro c
        rw [mem_sortedSet]
        exact hmemf c
      · intro s hs
        rw [hval] at hs
        simp at hs

/-- C8 witness: the input `a txgxn` (with a space) normalises to ATXGXN
and is rejected listing exactly the sorted distinct offenders N, X. -/
theorem c8_validate_sequence_witness :
    (['N', 'X'] : List Char).Pairwise (· < ·) ∧
    (∀ c, c ∈ (['N', 'X'] : List Char) ↔
      c ∈ normalizedOf ['a', ' ', 't', 'x', 'g', 'x', 'n'] ∧
        c ∉ dnaBases) :=
  (c8_validate_sequence ['a', ' ', 't', 'x', 'g', 'x', 'n']).2.2.1
    ['N', 'X'] (by rfl)

/-- Helper for C9: the valid and invalid filters partition the length. -/
theorem length_filter_valid_partition (l : List Char) :
    (l.filter (fun c => c ∈ valid_bases)).length +
      (l.filter (fun c => c ∉ valid_bases)).length = l.length := by
  induction l with
  | nil => rfl
  | cons c rest ih =>
    by_cases h : c ∈ valid_bases <;>
      simp [List.filter_cons, h, decide_not] at ih ⊢ <;> omega

/-- C9: `clean_sequence` partitions the uppercased input — the cleaned
sequence is the in-order valid part, the invalid list the in-order
invalid part, and their lengths sum to the input length. -/
theorem c9_clean_sequence_partition (seq : List Char) :
    (clean_sequence seq).1 =
      (seq.map Char.toUpper).filter (fun c => c ∈ valid_bases) ∧
    (clean_sequence seq).2 =
      (seq.map Char.toUpper).filter (fun c => c ∉ valid_bases) ∧
    (clean_sequence seq).1.length + (clean_sequence seq).2.length =
      seq.length := by
  refine ⟨rfl, rfl, ?_⟩
  have h := length_filter_valid_partition (seq.map Char.toUpper)
  rw [List.length_map] at h
  exact h

/-! ### at_content.py -/

/-- Python `round` to an integer: round half to even on an exact
rational. -/
def roundToInt (x : Rat) : Int :=
  let f := ⌊x⌋
  let frac := x - f
  if frac < 1/2 then f
  else if 1/2 < frac then f + 1
  else if f % 2 = 0 then f else f + 1

/-- Python `round(x, ndigits)`: half-to-even rounding to `ndigits`
decimal places (the float value involved here is not a rounding
boundary, so the exact-rational model agrees with the float result). -/
def pyRound (x : Rat) (ndigits : Nat) : Rat :=
  (roundToInt (x * 10 ^ ndigits) : Rat) / 10 ^ ndigits

/-- `at_content.get_at_content`: uppercase, count A and T, divide by the
full length, round to `sig_figs` decimal places. -/
def get_at_content (dna : List Char) (sig_figs : Nat) : Rat :=
  let d := dna.map Char.toUpper
  let length := d.length
  let a := d.count 'A'
  let t := d.count 'T'
  pyRound (((a : Rat) + (t : Rat)) / (length : Rat)) sig_figs

/-- C6: evaluating the code at the input of its own `__main__` assertion:
`get_at_content("ATGNNNC", 1)` is `round(2/7, 1) = 0.3`, not the `0.5`
the assertion (and the spec example) demand, so the assertion fails. -/
theorem c6_get_at_content_assert_fails :
    get_at_content ['A', 'T', 'G', 'N', 'N', 'N', 'C'] 1 = 3/10 ∧
    (3/10 : Rat) ≠ 1/2 := by
  constructor
  · have h : get_at_content ['A', 'T', 'G', 'N', 'N', 'N', 'C'] 1 =
        pyRound ((((1 : Nat) : Rat) + ((1 : Nat) : Rat)) /
          (((7 : Nat) : Rat))) 1 := rfl
    rw [h]
    unfold pyRound roundToInt
    have hf : ⌊((((1 : Nat) : Rat) + ((1 : Nat) : Rat)) /
        (((7 : Nat) : Rat)) * 10 ^ 1)⌋ = 2 := by
      rw [Int.floor_eq_iff]
      norm_num
    rw [hf]
    norm_num
  · norm_num

/-! ### rps.py -/

/-- The fixed vocabulary of `rps.py`. -/
def VALID_CHOICES : List String := ["rock", "paper", "scissors"]

/-- The dictionary lookup `wins.get(user)` of `rps.determine_result`:
each key beats the returned value; absent keys give `None`. -/
def wins (choice : String) : Option String :=
  if choice = "rock" then some "scissors"
  else if choice = "scissors" then some "paper"
  else if choice = "paper" then some "rock"
  else none

/-- `rps.determine_result`: equal choices draw, the user wins when
`wins.get(user) == cpu`, otherwise the user loses. -/
def determine_result (user cpu : String) : String :=
  if user = cpu then "draw"
  else if wins user = some cpu then "win"
  else "lose"

/-- `rps.play` with the pseudo-random CPU draw injected as a parameter
(per the spec's design note): validate the user's choice against the
vocabulary, then score the round. -/
def play (user_choice cpu_choice : String) :
    Except String (String × String) :=
  if user_choice ∉ VALID_CHOICES then
    .error ("Opción inválida: " ++ user_choice)
  else
    .ok (cpu_choice, determine_result user_choice cpu_choice)

/-- C7: the complete 9-entry outcome table of `determine_result`:
equal choices draw, and otherwise the fixed cycle rock beats scissors,
scissors beats paper, paper beats rock decides win or lose from the
user's perspective. -/
theorem c7_determine_result_table :
    determine_result "rock" "rock" = "draw" ∧
    determine_result "rock" "paper" = "lose" ∧
    determine_result "rock" "scissors" = "win" ∧
    determine_result "paper" "rock" = "win" ∧
    determine_result "paper" "paper" = "draw" ∧
    determine_result "paper" "scissors" = "lose" ∧
    determine_result "scissors" "rock" = "lose" ∧
    determine_result "scissors" "paper" = "win" ∧
    determine_result "scissors" "scissors" = "draw" := by
  decide

/-- C10: `determine_result` validates nothing — any user choice outside
the vocabulary scores as a loss against any different cpu string — while
`play` is the function that rejects the invalid choice. -/
theorem c10_determine_result_no_validation (user cpu : String)
    (huser : user ∉ VALID_CHOICES) (hne : cpu ≠ user) :
    determine_result user cpu = "lose" ∧
    play user cpu = .error ("Opción inválida: " ++ user) := by
  obtain ⟨hr, hp, hs⟩ : ¬ user = "rock" ∧ ¬ user = "paper" ∧
      ¬ user = "scissors" := by
    simpa [VALID_CHOICES] using huser
  constructor
  · unfold determine_result wins
    rw [if_neg (fun h => hne h.symm), if_neg hr, if_neg hs, if_neg hp]
    simp
  · unfold play
    rw [if_pos huser]

/-- C10 witness: the invalid choice lizard against rock loses in
`determine_result` and is rejected by `play`. -/
theorem c10_determine_result_no_validation_witness :
    determine_result "lizard" "rock" = "lose" ∧
    play "lizard" "rock" = .error ("Opción inválida: " ++ "lizard") :=
  c10_determine_result_no_validation "lizard" "rock" (by decide) (by decide)

/-! ### gene_expression.py -/

/-- Python string `<` (case-sensitive lexicographic comparison by code
point, a proper prefix comparing smaller). -/
def pyStrLt : List Char → List Char → Bool
  | [], [] => false
  | [], _ :: _ => true
  | _ :: _, [] => false
  | a :: as, b :: bs =>
    if a < b then true else if b < a then false else pyStrLt as bs

/-- Python string `<=`. -/
def pyStrLe (a b : List Char) : Bool := pyStrLt a b || a == b

/-- Head-unfolding of the lexicographic comparison. -/
theorem pyStrLt_cons_iff (x y : Char) (xs ys : List Char) :
    pyStrLt (x :: xs) (y :: ys) = true ↔
      x < y ∨ (x = y ∧ pyStrLt xs ys = true) := by
  by_cases h1 : x < y
  · simp [pyStrLt, h1]
  · by_cases h2 : y < x
    · have hne : ¬ x = y := fun h => absurd (h ▸ h2) (lt_irrefl x)
      simp [pyStrLt, h1, h2, hne]
    · have heq : x = y := le_antisymm (not_lt.mp h2) (not_lt.mp h1)
      simp [pyStrLt, h1, h2, heq]

/-- The comparison is trichotomous. -/
theorem pyStrLt_trichotomy (a b : List Char) :
    pyStrLt a b = true ∨ a = b ∨ pyStrLt b a = true := by
  induction a generalizing b with
  | nil =>
    cases b with
    | nil => exact Or.inr (Or.inl rfl)
    | cons y ys => exact Or.inl rfl
  | cons x xs ih =>
    cases b with
    | nil => exact Or.inr (Or.inr rfl)
    | cons y ys =>
      rcases lt_trichotomy x y with h | h | h
      · exact Or.inl ((pyStrLt_cons_iff x y xs ys).mpr (Or.inl h))
      · subst h
        rcases ih ys with h2 | h2 | h2
        · exact Or.inl ((pyStrLt_cons_iff x x xs ys).mpr (Or.inr ⟨rfl, h2⟩))
        · exact Or.inr (Or.inl (by rw [h2]))
        · exact Or.inr (Or.inr
            ((pyStrLt_cons_iff x x ys xs).mpr (Or.inr ⟨rfl, h2⟩)))
      · exact Or.inr (Or.inr ((pyStrLt_cons_iff y x ys xs).mpr (Or.inl h)))

/-- The comparison is transitive. -/
theorem pyStrLt_trans (a b c : List Char) (h1 : pyStrLt a b = true)
    (h2 : pyStrLt b c = true) : pyStrLt a c = true := by
  induction a generalizing b c with
  | nil =>
    cases c with
    | nil =>
      cases b with
      | nil => exact absurd h1 (by simp [pyStrLt])
      | cons y ys => exact absurd h2 (by simp [pyStrLt])
    | cons z zs => rfl
  | cons x xs ih =>
    cases b with
    | nil => exact absurd h1 (by simp [pyStrLt])
    | cons y ys =>
      cases c with
      | nil => exact absurd h2 (by simp [pyStrLt])
      | cons z zs =>
        rcases (pyStrLt_cons_iff x y xs ys).mp h1 with hxy | ⟨hxy, hrec1⟩ <;>
          rcases (pyStrLt_cons_iff y z ys zs).mp h2 with hyz | ⟨hyz, hrec2⟩
        · exact (pyStrLt_cons_iff x z xs zs).mpr (Or.inl (lt_trans hxy hyz))
        · exact (pyStrLt_cons_iff x z xs zs).mpr (Or.inl (hyz ▸ hxy))
        · exact (pyStrLt_cons_iff x z xs zs).mpr (Or.inl (hxy ▸ hyz))
        · exact (pyStrLt_cons_iff x z xs zs).mpr
            (Or.inr ⟨hxy.trans hyz, ih ys zs hrec1 hrec2⟩)

/-- `<=` is total. -/
theorem pyStrLe_total (a b : List Char) :
    pyStrLe a b = true ∨ pyStrLe b a = true := by
  rcases pyStrLt_trichotomy a b with h | h | h
  · exact Or.inl (by simp [pyStrLe, h])
  · exact Or.inl (by simp [pyStrLe, h])
  · exact Or.inr (by simp [pyStrLe, h])

/-- `<=` is transitive. -/
theorem pyStrLe_trans (a b c : List Char) (h1 : pyStrLe a b = true)
    (h2 : pyStrLe b c = true) : pyStrLe a c = true := by
  simp only [pyStrLe, Bool.or_eq_true, beq_iff_eq] at h1 h2 ⊢
  rcases h1 with h1 | h1
  · rcases h2 with h2 | h2
    · exact Or.inl (pyStrLt_trans a b c h1 h2)
    · exact Or.inl (h2 ▸ h1)
  · subst h1
    exact h2

/-- A row of the loaded expression table (after `load_expression_table`
has coerced `expression` to a number and dropped unparseable rows). -/
structure Row where
  gene : List Char
  expression : Rat
  deriving DecidableEq, Repr

/-- The row ordering used by `sort_values("gene")`: ascending,
case-sensitive, lexicographic on the gene identifier. -/
def RowLe (a b : Row) : Prop := pyStrLe a.gene b.gene = true

/-- Insert a row into a gene-sorted list, keeping it sorted. -/
def orderedInsertRow (r : Row) : List Row → List Row
  | [] => [r]
  | s :: ss =>
    if pyStrLe r.gene s.gene then r :: s :: ss else s :: orderedInsertRow r ss

/-- `df.sort_values("gene")`: sort rows ascending by gene identifier. -/
def sort_values_by_gene : List Row → List Row
  | [] => []
  | r :: rs => orderedInsertRow r (sort_values_by_gene rs)

/-- `gene_expression.filter_gene`: keep rows with expression at least the
threshold, then sort ascending by gene. -/
def filter_gene (df : List Row) (threshold : Rat) : List Row :=
  sort_values_by_gene (df.filter (fun r => threshold ≤ r.expression))

/-- Insertion is a permutation of consing. -/
theorem orderedInsertRow_perm (r : Row) (l : List Row) :
    (orderedInsertRow r l).Perm (r :: l) := by
  induction l with
  | nil => exact List.Perm.refl _
  | cons s ss ih =>
    by_cases h : pyStrLe r.gene s.gene = true
    · simp only [orderedInsertRow, if_pos h]
      exact List.Perm.refl _
    · simp only [orderedInsertRow, if_neg h]
      exact (ih.cons s).trans (List.Perm.swap r s ss)

/-- Sorting permutes the list. -/
theorem sort_values_by_gene_perm (l : List Row) :
    (sort_values_by_gene l).Perm l := by
  induction l with
  | nil => exact List.Perm.refl _
  | cons r rs ih => exact (orderedInsertRow_perm r _).trans (ih.cons r)

/-- Insertion preserves sortedness. -/
theorem pairwise_orderedInsertRow (r : Row) (l : List Row)
    (h : l.Pairwise RowLe) : (orderedInsertRow r l).Pairwise RowLe := by
  induction l with
  | nil => simp [orderedInsertRow]
  | cons s ss ih =>
    rcases List.pairwise_cons.mp h with ⟨hs, hss⟩
    by_cases hle : pyStrLe r.gene s.gene = true
    · simp only [orderedInsertRow, if_pos hle]
      refine List.pairwise_cons.mpr ⟨?_, h⟩
      intro x hx
      rcases List.mem_cons.mp hx with rfl | hx
      · exact hle
      · exact pyStrLe_trans _ _ _ hle (hs x hx)
    · have hge : pyStrLe s.gene r.gene = true := by
        rcases pyStrLe_total r.gene s.gene with h1 | h1
        · exact absurd h1 hle
        · exact h1
      simp only [orderedInsertRow, if_neg hle]
      refine List.pairwise_cons.mpr ⟨?_, ih hss⟩
      intro x hx
      rcases List.mem_cons.mp ((orderedInsertRow_perm r ss).mem_iff.mp hx)
        with rfl | hx
      · exact hge
      · exact hs x hx

/-- Sorting sorts. -/
theorem sort_values_by_gene_pairwise (l : List Row) :
    (sort_values_by_gene l).Pairwise RowLe := by
  induction l with
  | nil => simp [sort_values_by_gene]
  | cons r rs ih => exact pairwise_orderedInsertRow r _ ih

/-- C5: `filter_gene` returns, sorted ascending by gene identifier (in
the case-sensitive lexicographic order), exactly the rows whose
expression is at least the threshold (inclusive boundary); on the rows
(Z,1), (A,10), (B,5) with threshold 5 the gene order is A then B. -/
theorem c5_filter_gene :
    (∀ (df : List Row) (threshold : Rat),
      (filter_gene df threshold).Pairwise RowLe ∧
      (filter_gene df threshold).Perm
        (df.filter (fun r => threshold ≤ r.expression)) ∧
      (∀ r : Row, r ∈ filter_gene df threshold ↔
        r ∈ df ∧ threshold ≤ r.expression)) ∧
    (filter_gene [⟨['Z'], 1⟩, ⟨['A'], 10⟩, ⟨['B'], 5⟩] 5).map Row.gene =
      [['A'], ['B']] := by
  constructor
  · intro df threshold
    refine ⟨sort_values_by_gene_pairwise _, sort_values_by_gene_perm _, ?_⟩
    intro r
    unfold filter_gene
    rw [(sort_values_by_gene_perm _).mem_iff, List.mem_filter]
    simp
  · decide

/-- C5 witness: the universally quantified part applied to the concrete
example table at the inclusive threshold 5. -/
theorem c5_filter_gene_witness :
    (filter_gene [⟨['Z'], 1⟩, ⟨['A'], 10⟩, ⟨['B'], 5⟩] 5).Pairwise RowLe ∧
    (⟨['B'], 5⟩ : Row) ∈ filter_gene [⟨['Z'], 1⟩, ⟨['A'], 10⟩, ⟨['B'], 5⟩] 5 :=
  ⟨(c5_filter_gene.1 [⟨['Z'], 1⟩, ⟨['A'], 10⟩, ⟨['B'], 5⟩] 5).1,
    ((c5_filter_gene.1 [⟨['Z'], 1⟩, ⟨['A'], 10⟩, ⟨['B'], 5⟩] 5).2.2
      ⟨['B'], 5⟩).mpr ⟨by decide, by decide⟩⟩
